import Mathlib

/-!
Verification of the camera transform engine of OpenImageDebugger
(`src/visualization/components/camera.cpp`).

The embedding uses exact rational arithmetic in place of 32-bit floats, and
integer zoom exponents in place of the float `zoom_power_` / `delta`
(every call site of `scale_at` and every loop of `set_initial_zoom` steps
the exponent by whole units).  The linear-algebra primitives (`vec4`,
`mat4`) and the `zoom_factor` constant live in headers that are not part
of the excerpted sources, so they are modelled from the specification.
-/

/-- 4-component vector of rationals; models the float `vec4` value type. -/
abbrev vec4 := Fin 4 → ℚ

/-- 4x4 rational matrix; models the float `mat4` value type. -/
abbrev mat4 := Matrix (Fin 4) (Fin 4) ℚ

/-- Modelled from the spec: `translation(v)` yields a matrix whose action on
homogeneous coordinates adds `v`'s x/y/z components (the `w` component of `v`
is ignored).  The `mat4::translation` factory itself is not in the excerpted
sources. -/
def mat4.translation (v : vec4) : mat4 :=
  Matrix.of ![![1, 0, 0, v 0],
              ![0, 1, 0, v 1],
              ![0, 0, 1, v 2],
              ![0, 0, 0, 1]]

/-- Modelled from the spec: `scale(v)` yields a diagonal matrix with the four
components of `v` on the diagonal.  The `mat4::scale` factory itself is not in
the excerpted sources. -/
def mat4.scale (v : vec4) : mat4 :=
  Matrix.of ![![v 0, 0, 0, 0],
              ![0, v 1, 0, 0],
              ![0, 0, v 2, 0],
              ![0, 0, 0, v 3]]

/-- Modelled from the spec: `set_ortho_projection(halfW, halfH, near, far)`
builds a symmetric orthographic projection.  The factory itself is not in the
excerpted sources. -/
def mat4.set_ortho_projection (r t n f : ℚ) : mat4 :=
  Matrix.of ![![1 / r, 0, 0, 0],
              ![0, 1 / t, 0, 0],
              ![0, 0, -2 / (f - n), -(f + n) / (f - n)],
              ![0, 0, 0, 1]]

/-- Modelled from the spec: `.inv()` is an exact matrix inverse for the
invertible matrices the camera constructs.  Realised through the adjugate
formula, which agrees with the true inverse whenever the determinant is
nonzero. -/
def mat4.inv (A : mat4) : mat4 :=
  A.det⁻¹ • A.adjugate

/-- Modelled from the spec: the fixed zoom base (> 1); the constant lives in
`camera.h`, which is not in the excerpted sources; the spec's scenarios use
base 1.1. -/
def zoom_factor : ℚ := 11 / 10

/-- The `Camera` component state: accumulated zoom exponent, pan offset,
canvas size, the pure-scale matrix, the orthographic projection, and the pose
of the owning GameObject (written through `game_object_->set_pose`). -/
structure CameraState where
  zoom_power_ : ℤ
  camera_pos_x_ : ℚ
  camera_pos_y_ : ℚ
  canvas_width_ : ℤ
  canvas_height_ : ℤ
  scale_ : mat4
  projection : mat4
  object_pose : mat4
  deriving DecidableEq

namespace Camera

/-- `Camera::compute_zoom`: `pow(zoom_factor, zoom_power_)`. -/
def compute_zoom (st : CameraState) : ℚ :=
  zoom_factor ^ st.zoom_power_

/-- `Camera::update_object_pose`: the owning GameObject's pose becomes
`scale_ * translation(-camera_pos_x_, -camera_pos_y_, 0, 1)`. -/
def update_object_pose (st : CameraState) : CameraState :=
  { st with object_pose :=
      st.scale_ *
        mat4.translation ![-st.camera_pos_x_, -st.camera_pos_y_, 0, 1] }

/-- `Camera::window_resized`: rebuild the orthographic projection for the new
canvas and record the canvas size. -/
def window_resized (st : CameraState) (w h : ℤ) : CameraState :=
  { st with
    projection := mat4.set_ortho_projection ((w : ℚ) / 2) ((h : ℚ) / 2) (-1) 1
    canvas_width_ := w
    canvas_height_ := h }

/-- Zeroes the `(0,3)` and `(1,3)` entries of a matrix; models the two
assignments `scale_(0, 3) = 0.0f; scale_(1, 3) = 0.0f` in `Camera::scale_at`. -/
def zero_xy_translation (A : mat4) : mat4 :=
  Matrix.of fun i j => if (i = 0 ∨ i = 1) ∧ j = 3 then 0 else A i j

/-- `Camera::scale_at(center_ndc, delta)`: pointer-anchored zoom. -/
def scale_at (st : CameraState) (center_ndc : vec4) (delta : ℤ) : CameraState :=
  let vp_inv := st.object_pose * mat4.inv st.projection
  let delta_zoom := zoom_factor ^ (-delta)
  let center_pos := (mat4.inv st.scale_ * vp_inv).mulVec center_ndc
  let scale1 := st.scale_ *
                mat4.translation center_pos *
                mat4.scale ![delta_zoom, delta_zoom, 1, 1] *
                mat4.translation (-center_pos)
  update_object_pose
    { st with
      camera_pos_x_ := st.camera_pos_x_ - scale1 0 3 / scale1 0 0
      camera_pos_y_ := st.camera_pos_y_ - scale1 1 3 / scale1 1 1
      scale_ := zero_xy_translation scale1
      zoom_power_ := st.zoom_power_ + delta }

/-- `Camera::scroll_callback(delta)`: converts the mouse position reported by
the GL canvas into NDC and zooms there. -/
def scroll_callback (st : CameraState)
    (mouse_x mouse_y win_w win_h : ℤ) (delta : ℤ) : CameraState :=
  let mouse_pos_ndc : vec4 :=
    ![2 * ((mouse_x : ℚ) - (win_w : ℚ) / 2) / (win_w : ℚ),
      -2 * ((mouse_y : ℚ) - (win_h : ℚ) / 2) / (win_h : ℚ),
      0, 1]
  scale_at st mouse_pos_ndc delta

/-- `Camera::handle_key_events`: keyboard pan while Control is held; the
keyboard state is passed as booleans.  Returns the new state and whether the
event was intercepted. -/
def handle_key_events (st : CameraState)
    (ctrl up down left right : Bool) : CameraState × Bool :=
  if ctrl then
    let dy : ℚ := if up then -1 else if down then 1 else 0
    let dx : ℚ := if left then -1 else if right then 1 else 0
    if up || down || left || right then
      let zoom := 1 / compute_zoom st
      (update_object_pose
        { st with
          camera_pos_x_ := st.camera_pos_x_ - (dx + st.scale_ 0 3)
          camera_pos_y_ := st.camera_pos_y_ - (dy + st.scale_ 1 3)
          scale_ := mat4.scale ![zoom, zoom, 1, 1] }, true)
    else (st, false)
  else (st, false)

/-- `Camera::key_press_event`: keyboard zoom anchored at the screen center
while Control is held; arrow keys are intercepted without acting here. -/
def key_press_event (st : CameraState)
    (ctrl plus minus up down left right : Bool) : CameraState × Bool :=
  if ctrl then
    if plus then (scale_at st ![0, 0, 0, 1] 1, true)
    else if minus then (scale_at st ![0, 0, 0, 1] (-1), true)
    else if up || down || left || right then (st, true)
    else (st, false)
  else (st, false)

/-- The zoom-in loop of `Camera::set_initial_zoom`: starting at exponent `p`,
step up while the scaled buffer still fits strictly inside the canvas; returns
the first exponent at which it no longer does.  The C++ `while` loop carries
no bound, so an explicit fuel is threaded through; `none` models
non-termination. -/
def zoom_in_loop (cw ch bx bV : ℚ) : ℤ → ℕ → Option ℤ
  | _, 0 => none
  | p, fuel + 1 =>
    if cw > zoom_factor ^ p * bx ∧ ch > zoom_factor ^ p * bV then
      zoom_in_loop cw ch bx bV (p + 1) fuel
    else some p

/-- The zoom-out loop of `Camera::set_initial_zoom`: starting at exponent `p`,
step down while the scaled buffer overflows the canvas; returns the first
exponent at which it fits. -/
def zoom_out_loop (cw ch bx bV : ℚ) : ℤ → ℕ → Option ℤ
  | _, 0 => none
  | p, fuel + 1 =>
    if cw < zoom_factor ^ p * bx ∨ ch < zoom_factor ^ p * bV then
      zoom_out_loop cw ch bx bV (p - 1) fuel
    else some p

/-- `Camera::set_initial_zoom`: auto-fit.  The buffer extents are transformed
by the buffer GameObject's pose, their absolute values are compared against
the canvas, and `zoom_power_` is driven by one of the two linear-scan loops;
finally `scale_` is rebuilt as a pure diagonal at the resulting zoom. -/
def set_initial_zoom (st : CameraState) (buffer_pose : mat4)
    (buffer_width_f buffer_height_f : ℚ) (fuel : ℕ) : Option CameraState :=
  let buf_dim := buffer_pose.mulVec ![buffer_width_f, buffer_height_f, 0, 1]
  let bx := |buf_dim 0|
  let bV := |buf_dim 1|
  let cw : ℚ := (st.canvas_width_ : ℚ)
  let ch : ℚ := (st.canvas_height_ : ℚ)
  let zp? : Option ℤ :=
    if cw > bx ∧ ch > bV then
      (zoom_in_loop cw ch bx bV 1 fuel).map (fun q => q - 1)
    else if cw < bx ∨ ch < bV then
      zoom_out_loop cw ch bx bV (-1) fuel
    else some 0
  zp?.map fun zp =>
    let zoom := 1 / zoom_factor ^ zp
    { st with
      zoom_power_ := zp
      scale_ := mat4.scale ![zoom, zoom, 1, 1] }

/-- `Camera::post_initialize`: resize to the GL canvas, auto-fit, update the
pose. -/
def post_initialize (st : CameraState) (w h : ℤ) (buffer_pose : mat4)
    (buffer_width_f buffer_height_f : ℚ) (fuel : ℕ) : Option CameraState :=
  (set_initial_zoom (window_resized st w h)
      buffer_pose buffer_width_f buffer_height_f fuel).map update_object_pose

/-- `Camera::move_to(x, y)`: center the given buffer-local point. -/
def move_to (st : CameraState) (buffer_pose : mat4)
    (buffer_width_f buffer_height_f : ℚ) (x y : ℚ) : CameraState :=
  let buf_dim : vec4 := ![buffer_width_f, buffer_height_f, 0, 1]
  let centered_coord : vec4 := (1 / 2 : ℚ) • buf_dim - ![x, y, 0, 0]
  let zoom := 1 / compute_zoom st
  let scale2 := mat4.scale ![zoom, zoom, 1, 1]
  let transformed_goal := (mat4.inv scale2 * buffer_pose).mulVec centered_coord
  update_object_pose
    { st with
      scale_ := scale2
      camera_pos_x_ := transformed_goal 0
      camera_pos_y_ := transformed_goal 1 }

/-- `Camera::get_position()`: the buffer-local coordinate currently at the
canvas center. -/
def get_position (st : CameraState) (buffer_pose : mat4)
    (buffer_width_f buffer_height_f : ℚ) : vec4 :=
  let buf_dim : vec4 := ![buffer_width_f, buffer_height_f, 0, 1]
  (1 / 2 : ℚ) • buf_dim -
    (mat4.inv buffer_pose * st.scale_).mulVec
      ![st.camera_pos_x_, st.camera_pos_y_, 0, 1]

/-- `Camera::recenter_camera`: reset the pan, re-run auto-fit, update the
pose. -/
def recenter_camera (st : CameraState) (buffer_pose : mat4)
    (buffer_width_f buffer_height_f : ℚ) (fuel : ℕ) : Option CameraState :=
  (set_initial_zoom { st with camera_pos_x_ := 0, camera_pos_y_ := 0 }
      buffer_pose buffer_width_f buffer_height_f fuel).map update_object_pose

/-- `Camera::mouse_drag_event(mouse_x, mouse_y)`: raw pixel deltas accumulate
into the pan offset with no scale compensation. -/
def mouse_drag_event (st : CameraState) (mouse_x mouse_y : ℤ) : CameraState :=
  update_object_pose
    { st with
      camera_pos_x_ := st.camera_pos_x_ + (mouse_x : ℚ)
      camera_pos_y_ := st.camera_pos_y_ + (mouse_y : ℚ) }

/-- Invariant: the pose of the owning GameObject agrees with the camera
parameters (`scale_ * translation(-camera_pos_x_, -camera_pos_y_, 0, 1)`). -/
def PoseOk (st : CameraState) : Prop :=
  st.object_pose =
    st.scale_ * mat4.translation ![-st.camera_pos_x_, -st.camera_pos_y_, 0, 1]

/-- Invariant: `scale_` is the pure diagonal `(1/zoom, 1/zoom, 1, 1)` at the
current zoom level. -/
def ScaleOk (st : CameraState) : Prop :=
  st.scale_ =
    mat4.scale ![(zoom_factor ^ st.zoom_power_)⁻¹,
                 (zoom_factor ^ st.zoom_power_)⁻¹, 1, 1]

/-- The translation entries of `scale_` are all zero. -/
def TransZero (st : CameraState) : Prop :=
  st.scale_ 0 3 = 0 ∧ st.scale_ 1 3 = 0 ∧ st.scale_ 2 3 = 0

/-- The diagonal of `scale_` is `(zoom_factor ^ (-zoom_power_),
zoom_factor ^ (-zoom_power_), 1, 1)`. -/
def DiagZoom (st : CameraState) : Prop :=
  st.scale_ 0 0 = zoom_factor ^ (-st.zoom_power_) ∧
  st.scale_ 1 1 = zoom_factor ^ (-st.zoom_power_) ∧
  st.scale_ 2 2 = 1 ∧ st.scale_ 3 3 = 1

/-- A matrix is affine when its bottom row is `(0, 0, 0, 1)`. -/
def AffineRow (A : mat4) : Prop :=
  A 3 = ![0, 0, 0, 1]

/-- Iterated `scale_at` over a list of (anchor, delta) pairs. -/
def apply_scale_ats (st : CameraState) : List (vec4 × ℤ) → CameraState
  | [] => st
  | (c, d) :: rest => apply_scale_ats (scale_at st c d) rest

end Camera

/-- A concrete camera state, used to exercise the invariant theorems: zoom
power 0, pan (0,0), a 2x2 canvas, identity-like scale and projection, and a
pose consistent with the camera parameters. -/
def demo_state : CameraState where
  zoom_power_ := 0
  camera_pos_x_ := 0
  camera_pos_y_ := 0
  canvas_width_ := 2
  canvas_height_ := 2
  scale_ := mat4.scale ![(zoom_factor ^ (0 : ℤ))⁻¹, (zoom_factor ^ (0 : ℤ))⁻¹, 1, 1]
  projection := 1
  object_pose :=
    mat4.scale ![(zoom_factor ^ (0 : ℤ))⁻¹, (zoom_factor ^ (0 : ℤ))⁻¹, 1, 1] *
      mat4.translation ![-(0 : ℚ), -(0 : ℚ), 0, 1]

/-- A camera state with an 800x800 canvas and identity matrices, used for the
auto-fit scenarios. -/
def canvas800_state : CameraState where
  zoom_power_ := 0
  camera_pos_x_ := 0
  camera_pos_y_ := 0
  canvas_width_ := 800
  canvas_height_ := 800
  scale_ := 1
  projection := 1
  object_pose := 1

/-- The state `set_initial_zoom` produces on `canvas800_state` for the
boundary buffer `(80000/121, 1)`: zoom power 1. -/
def c3_cex_result : CameraState :=
  { canvas800_state with
    zoom_power_ := 1
    scale_ := mat4.scale ![1 / zoom_factor ^ (1 : ℤ), 1 / zoom_factor ^ (1 : ℤ), 1, 1] }

/-- The state `set_initial_zoom` produces on `canvas800_state` for the spec's
buffer `(200, 100)`: zoom power 14. -/
def c3_fit_result : CameraState :=
  { canvas800_state with
    zoom_power_ := 14
    scale_ := mat4.scale ![1 / zoom_factor ^ (14 : ℤ), 1 / zoom_factor ^ (14 : ℤ), 1, 1] }

/-- The state `set_initial_zoom` produces on `demo_state` (2x2 canvas) for a
buffer of extents `(19/10, 19/10)`: zoom power 0. -/
def c3_small_result : CameraState :=
  { demo_state with
    zoom_power_ := 0
    scale_ := mat4.scale ![1 / zoom_factor ^ (0 : ℤ), 1 / zoom_factor ^ (0 : ℤ), 1, 1] }

/-! ### Helper lemmas for 4x4 matrix computation -/

set_option maxHeartbeats 1000000

/-- Product of two explicit 4x4 matrices, entrywise. -/
theorem mul_of_four (a b c d e f g h i j k l m n o p
    a' b' c' d' e' f' g' h' i' j' k' l' m' n' o' p' : ℚ) :
    (Matrix.of ![![a, b, c, d], ![e, f, g, h], ![i, j, k, l], ![m, n, o, p]] : mat4) *
      Matrix.of ![![a', b', c', d'], ![e', f', g', h'], ![i', j', k', l'], ![m', n', o', p']] =
    Matrix.of ![![a*a' + b*e' + c*i' + d*m', a*b' + b*f' + c*j' + d*n',
                 a*c' + b*g' + c*k' + d*o', a*d' + b*h' + c*l' + d*p'],
                ![e*a' + f*e' + g*i' + h*m', e*b' + f*f' + g*j' + h*n',
                 e*c' + f*g' + g*k' + h*o', e*d' + f*h' + g*l' + h*p'],
                ![i*a' + j*e' + k*i' + l*m', i*b' + j*f' + k*j' + l*n',
                 i*c' + j*g' + k*k' + l*o', i*d' + j*h' + k*l' + l*p'],
                ![m*a' + n*e' + o*i' + p*m', m*b' + n*f' + o*j' + p*n',
                 m*c' + n*g' + o*k' + p*o', m*d' + n*h' + o*l' + p*p']] := by
  ext x y
  fin_cases x <;> fin_cases y <;>
    simp [Matrix.mul_apply, Fin.sum_univ_four]

/-- An explicit 4x4 matrix applied to an explicit 4-vector, entrywise. -/
theorem mulVec_of_four (a b c d e f g h i j k l m n o p q r s t : ℚ) :
    (Matrix.of ![![a, b, c, d], ![e, f, g, h], ![i, j, k, l], ![m, n, o, p]] : mat4).mulVec
      ![q, r, s, t] =
    ![a*q + b*r + c*s + d*t, e*q + f*r + g*s + h*t,
      i*q + j*r + k*s + l*t, m*q + n*r + o*s + p*t] := by
  funext x
  fin_cases x <;>
    simp [Matrix.mulVec, Matrix.dotProduct, Fin.sum_univ_four]

/-- Two explicit 4x4 matrices agree once their entries do. -/
theorem of_four_congr {a b c d e f g h i j k l m n o p
    a' b' c' d' e' f' g' h' i' j' k' l' m' n' o' p' : ℚ}
    (h1 : a = a') (h2 : b = b') (h3 : c = c') (h4 : d = d')
    (h5 : e = e') (h6 : f = f') (h7 : g = g') (h8 : h = h')
    (h9 : i = i') (h10 : j = j') (h11 : k = k') (h12 : l = l')
    (h13 : m = m') (h14 : n = n') (h15 : o = o') (h16 : p = p') :
    (Matrix.of ![![a, b, c, d], ![e, f, g, h], ![i, j, k, l], ![m, n, o, p]] : mat4) =
    Matrix.of ![![a', b', c', d'], ![e', f', g', h'], ![i', j', k', l'], ![m', n', o', p']] := by
  subst h1 h2 h3 h4 h5 h6 h7 h8 h9 h10 h11 h12 h13 h14 h15 h16
  rfl

/-- Two explicit 4-vectors agree once their entries do. -/
theorem vec_four_congr {a b c d a' b' c' d' : ℚ}
    (h1 : a = a') (h2 : b = b') (h3 : c = c') (h4 : d = d') :
    (![a, b, c, d] : vec4) = ![a', b', c', d'] := by
  subst h1 h2 h3 h4
  rfl

/-- `mat4.translation` as an explicit matrix (definitional). -/
theorem translation_of (v : vec4) :
    mat4.translation v =
      Matrix.of ![![1, 0, 0, v 0], ![0, 1, 0, v 1], ![0, 0, 1, v 2], ![0, 0, 0, 1]] := rfl

/-- `mat4.scale` as an explicit matrix (definitional). -/
theorem scale_of (v : vec4) :
    mat4.scale v =
      Matrix.of ![![v 0, 0, 0, 0], ![0, v 1, 0, 0], ![0, 0, v 2, 0], ![0, 0, 0, v 3]] := rfl

/-- The identity as an explicit matrix. -/
theorem one_of_four :
    (1 : mat4) =
      Matrix.of ![![1, 0, 0, 0], ![0, 1, 0, 0], ![0, 0, 1, 0], ![0, 0, 0, 1]] := by
  ext x y
  fin_cases x <;> fin_cases y <;>
    simp [Matrix.one_apply, Matrix.vecHead, Matrix.vecTail]

/-- A right inverse is the `mat4.inv` inverse: uniqueness through the adjugate
formula. -/
theorem mat4.inv_eq {A B : mat4} (hAB : A * B = 1) : mat4.inv A = B := by
  have hdet : A.det ≠ 0 := by
    intro h0
    have := congrArg Matrix.det hAB
    rw [Matrix.det_mul, h0, Matrix.det_one] at this
    simp at this
  have hleft : mat4.inv A * A = 1 := by
    unfold mat4.inv
    rw [Matrix.smul_mul, Matrix.adjugate_mul, smul_smul, inv_mul_cancel₀ hdet, one_smul]
  calc mat4.inv A = mat4.inv A * (A * B) := by rw [hAB, mul_one]
    _ = (mat4.inv A * A) * B := by rw [mul_assoc]
    _ = B := by rw [hleft, one_mul]

/-! ### Claim theorems (beginning) -/

/-- **C8**: `mouse_drag_event(dx, dy)` adds the raw pixel deltas directly to
`camera_pos_x_`/`camera_pos_y_` with no scale or zoom compensation, and
dragging by (10,5) and then by (-10,-5) restores both coordinates exactly. -/
theorem c8_mouse_drag_raw_deltas (st : CameraState) (dx dy : ℤ) :
    (Camera.mouse_drag_event st dx dy).camera_pos_x_ = st.camera_pos_x_ + (dx : ℚ) ∧
    (Camera.mouse_drag_event st dx dy).camera_pos_y_ = st.camera_pos_y_ + (dy : ℚ) ∧
    (Camera.mouse_drag_event (Camera.mouse_drag_event st 10 5) (-10) (-5)).camera_pos_x_ =
      st.camera_pos_x_ ∧
    (Camera.mouse_drag_event (Camera.mouse_drag_event st 10 5) (-10) (-5)).camera_pos_y_ =
      st.camera_pos_y_ := by
  refine ⟨rfl, rfl, ?_, ?_⟩ <;>
    simp [Camera.mouse_drag_event, Camera.update_object_pose]

/-- **C9**: calling `window_resized` twice in a row with the same `(w, h)`
leaves the whole camera state exactly as after the first call. -/
theorem c9_window_resized_idempotent (st : CameraState) (w h : ℤ) :
    Camera.window_resized (Camera.window_resized st w h) w h =
      Camera.window_resized st w h := rfl

/-- `zoom_factor` is nonzero. -/
theorem zoom_factor_ne_zero : zoom_factor ≠ 0 := by norm_num [zoom_factor]

/-- `zoom_factor` is a base strictly greater than 1. -/
theorem one_lt_zoom_factor : 1 < zoom_factor := by norm_num [zoom_factor]

/-- `zoom_factor` is positive. -/
theorem zoom_factor_pos : 0 < zoom_factor := by norm_num [zoom_factor]

/-- The product `scale_(s) * translate(w) * scale(dz) * translate(-w)` formed
by `Camera::scale_at`, written out entrywise. -/
theorem scale_anchor_product (s dz : ℚ) (w : vec4) :
    mat4.scale ![s, s, 1, 1] * mat4.translation w * mat4.scale ![dz, dz, 1, 1] *
      mat4.translation (-w) =
    Matrix.of ![![s * dz, 0, 0, s * w 0 - s * dz * w 0],
                ![0, s * dz, 0, s * w 1 - s * dz * w 1],
                ![0, 0, 1, 0],
                ![0, 0, 0, 1]] := by
  simp only [translation_of, scale_of, Matrix.cons_val_zero, Matrix.cons_val_one,
    Matrix.cons_val_two, Matrix.cons_val_three, Matrix.cons_val_succ,
    Matrix.head_cons, Matrix.vecHead, Matrix.vecTail, Pi.neg_apply,
    Function.comp_apply]
  rw [mul_of_four, mul_of_four, mul_of_four]
  apply of_four_congr <;> ring

/-- `zero_xy_translation` on an explicit matrix. -/
theorem zero_xy_translation_of (a b c d e f g h i j k l m n o p : ℚ) :
    Camera.zero_xy_translation
        (Matrix.of ![![a, b, c, d], ![e, f, g, h], ![i, j, k, l], ![m, n, o, p]]) =
      Matrix.of ![![a, b, c, 0], ![e, f, g, 0], ![i, j, k, l], ![m, n, o, p]] := by
  ext x y
  fin_cases x <;> fin_cases y <;>
    simp [Camera.zero_xy_translation, Matrix.vecHead, Matrix.vecTail]

/-- Composition of translations. -/
theorem translation_mul_translation (u v : vec4) :
    mat4.translation u * mat4.translation v =
      mat4.translation ![u 0 + v 0, u 1 + v 1, u 2 + v 2, 1] := by
  simp only [translation_of, Matrix.cons_val_zero, Matrix.cons_val_one,
    Matrix.cons_val_two, Matrix.cons_val_three, Matrix.cons_val_succ,
    Matrix.head_cons, Matrix.vecHead,
    Matrix.vecTail, Function.comp_apply]
  rw [mul_of_four]
  apply of_four_congr <;> ring

/-- A translation by x/y/z zero is the identity. -/
theorem translation_zero (w : ℚ) : mat4.translation ![0, 0, 0, w] = 1 := by
  rw [translation_of, one_of_four]
  apply of_four_congr <;> simp

/-- Composition of scales. -/
theorem scale_mul_scale (u v : vec4) :
    mat4.scale u * mat4.scale v =
      mat4.scale ![u 0 * v 0, u 1 * v 1, u 2 * v 2, u 3 * v 3] := by
  simp only [scale_of, Matrix.cons_val_zero, Matrix.cons_val_one,
    Matrix.cons_val_two, Matrix.cons_val_three, Matrix.cons_val_succ,
    Matrix.head_cons, Matrix.vecHead,
    Matrix.vecTail, Function.comp_apply]
  rw [mul_of_four]
  apply of_four_congr <;> ring

/-- The inverse of an invertible `(s, s, 1, 1)` scale. -/
theorem inv_scale (s : ℚ) (hs : s ≠ 0) :
    mat4.inv (mat4.scale ![s, s, 1, 1]) = mat4.scale ![s⁻¹, s⁻¹, 1, 1] := by
  apply mat4.inv_eq
  rw [scale_mul_scale, one_of_four, scale_of]
  apply of_four_congr <;>
    simp [Matrix.vecHead, Matrix.vecTail, mul_inv_cancel₀ hs]

/-- The inverse of a translation. -/
theorem inv_translation (v : vec4) :
    mat4.inv (mat4.translation v) = mat4.translation ![-v 0, -v 1, -v 2, 1] := by
  apply mat4.inv_eq
  rw [translation_mul_translation,
    show (![v 0 + ![-v 0, -v 1, -v 2, 1] 0, v 1 + ![-v 0, -v 1, -v 2, 1] 1,
        v 2 + ![-v 0, -v 1, -v 2, 1] 2, 1] : vec4) = ![0, 0, 0, 1] from by
      apply vec_four_congr <;> simp,
    translation_zero]

/-- Translation matrices have an affine bottom row. -/
theorem affineRow_translation (v : vec4) : Camera.AffineRow (mat4.translation v) := by
  funext j
  fin_cases j <;> simp [mat4.translation, Matrix.vecHead, Matrix.vecTail]

/-- Scale matrices with unit `w` component have an affine bottom row. -/
theorem affineRow_scale (a b c : ℚ) : Camera.AffineRow (mat4.scale ![a, b, c, 1]) := by
  funext j
  fin_cases j <;> simp [mat4.scale, Matrix.vecHead, Matrix.vecTail]

/-- Products preserve the affine bottom row. -/
theorem affineRow_mul {A B : mat4} (hA : Camera.AffineRow A) (hB : Camera.AffineRow B) :
    Camera.AffineRow (A * B) := by
  have h0 := congrFun hA 0
  have h1 := congrFun hA 1
  have h2 := congrFun hA 2
  have h3 := congrFun hA 3
  simp [Matrix.vecHead, Matrix.vecTail] at h0 h1 h2 h3
  funext j
  rw [Camera.AffineRow] at hB
  simp [Matrix.mul_apply, Fin.sum_univ_four, h0, h1, h2, h3, congrFun hB j]

/-- An affine matrix applied to a point with unit `w` keeps `w = 1`. -/
theorem affineRow_mulVec {A : mat4} {u : vec4} (hA : Camera.AffineRow A)
    (hu : u 3 = 1) : A.mulVec u 3 = 1 := by
  have h0 := congrFun hA 0
  have h1 := congrFun hA 1
  have h2 := congrFun hA 2
  have h3 := congrFun hA 3
  simp [Matrix.vecHead, Matrix.vecTail] at h0 h1 h2 h3
  simp [Matrix.mulVec, Matrix.dotProduct, Fin.sum_univ_four, h0, h1, h2, h3, hu]

/-- Exponent arithmetic for composed zooms. -/
theorem zoom_pow_add_inv (zp d : ℤ) :
    (zoom_factor ^ zp)⁻¹ * zoom_factor ^ (-d) = (zoom_factor ^ (zp + d))⁻¹ := by
  rw [zpow_neg, ← mul_inv, ← zpow_add₀ zoom_factor_ne_zero]

/-- When `scale_` is a pure `(s, s, 1, 1)` diagonal, `scale_at` leaves it a
pure diagonal at `s * zoom_factor ^ (-delta)`. -/
theorem scale_at_scale_diag (st : CameraState) (c : vec4) (d : ℤ) (s : ℚ)
    (hs : st.scale_ = mat4.scale ![s, s, 1, 1]) :
    (Camera.scale_at st c d).scale_ =
      mat4.scale ![s * zoom_factor ^ (-d), s * zoom_factor ^ (-d), 1, 1] := by
  simp only [Camera.scale_at, Camera.update_object_pose]
  rw [hs]
  generalize ((mat4.inv (mat4.scale ![s, s, 1, 1]) *
      (st.object_pose * mat4.inv st.projection)).mulVec c) = w
  rw [scale_anchor_product, zero_xy_translation_of, scale_of]
  apply of_four_congr <;>
    simp [Matrix.vecHead, Matrix.vecTail, Matrix.cons_val_succ]

/-- `scale_at` adds its delta to the zoom power. -/
theorem scale_at_zoom_power (st : CameraState) (c : vec4) (d : ℤ) :
    (Camera.scale_at st c d).zoom_power_ = st.zoom_power_ + d := rfl

/-- `update_object_pose` establishes the pose/parameter relation. -/
theorem poseOk_update_object_pose (st : CameraState) :
    Camera.PoseOk (Camera.update_object_pose st) := rfl

/-- `update_object_pose` does not touch the scale invariant. -/
theorem scaleOk_update_object_pose {st : CameraState} (h : Camera.ScaleOk st) :
    Camera.ScaleOk (Camera.update_object_pose st) := h

/-- The scale invariant yields zero translation entries. -/
theorem transZero_of_scaleOk {st : CameraState} (h : Camera.ScaleOk st) :
    Camera.TransZero st := by
  refine ⟨?_, ?_, ?_⟩ <;>
    rw [h] <;>
      simp [mat4.scale, Matrix.vecHead, Matrix.vecTail]

/-- The scale invariant yields the diagonal-zoom relation. -/
theorem diagZoom_of_scaleOk {st : CameraState} (h : Camera.ScaleOk st) :
    Camera.DiagZoom st := by
  refine ⟨?_, ?_, ?_, ?_⟩ <;>
    rw [h] <;>
      simp [mat4.scale, Matrix.vecHead, Matrix.vecTail, zpow_neg]

/-- `scale_at` preserves the scale invariant. -/
theorem scaleOk_scale_at {st : CameraState} (h : Camera.ScaleOk st)
    (c : vec4) (d : ℤ) : Camera.ScaleOk (Camera.scale_at st c d) := by
  show (Camera.scale_at st c d).scale_ =
    mat4.scale ![(zoom_factor ^ (st.zoom_power_ + d))⁻¹,
                 (zoom_factor ^ (st.zoom_power_ + d))⁻¹, 1, 1]
  rw [scale_at_scale_diag st c d _ h, zoom_pow_add_inv]

/-- A state whose scale has just been rebuilt as
`scale(1/compute_zoom, 1/compute_zoom, 1, 1)` at an unchanged zoom power
satisfies the scale invariant. -/
theorem scaleOk_rebuild (st : CameraState) (zp : ℤ) (hzp : st.zoom_power_ = zp)
    (hsc : st.scale_ =
      mat4.scale ![1 / zoom_factor ^ zp, 1 / zoom_factor ^ zp, 1, 1]) :
    Camera.ScaleOk st := by
  rw [Camera.ScaleOk, hsc, hzp, one_div]

/-- `handle_key_events` preserves the scale invariant. -/
theorem scaleOk_handle_key_events {st : CameraState} (h : Camera.ScaleOk st)
    (ctrl up down left right : Bool) :
    Camera.ScaleOk (Camera.handle_key_events st ctrl up down left right).1 := by
  unfold Camera.handle_key_events
  cases ctrl
  · exact h
  · cases hkeys : (up || down || left || right)
    · simp only [Bool.true_eq_false, if_true, hkeys, if_false]
      exact h
    · simp only [if_true, hkeys]
      exact scaleOk_update_object_pose (scaleOk_rebuild _ st.zoom_power_ rfl rfl)

/-- `key_press_event` preserves the scale invariant. -/
theorem scaleOk_key_press_event {st : CameraState} (h : Camera.ScaleOk st)
    (ctrl plus minus up down left right : Bool) :
    Camera.ScaleOk (Camera.key_press_event st ctrl plus minus up down left right).1 := by
  unfold Camera.key_press_event
  cases ctrl
  · exact h
  · cases plus
    · cases minus
      · cases (up || down || left || right) <;> simp <;> exact h
      · simpa using scaleOk_scale_at h ![0, 0, 0, 1] (-1)
    · simpa using scaleOk_scale_at h ![0, 0, 0, 1] 1

/-- A successful `set_initial_zoom` establishes the scale invariant
outright. -/
theorem scaleOk_set_initial_zoom {st st' : CameraState} {P : mat4}
    {bw bh : ℚ} {fuel : ℕ}
    (h : Camera.set_initial_zoom st P bw bh fuel = some st') :
    Camera.ScaleOk st' := by
  simp only [Camera.set_initial_zoom, Option.map_eq_some'] at h
  obtain ⟨zp, _, hst⟩ := h
  exact scaleOk_rebuild st' zp (by rw [← hst]) (by rw [← hst])

/-- `move_to` establishes the scale invariant outright. -/
theorem scaleOk_move_to (st : CameraState) (P : mat4) (bw bh x y : ℚ) :
    Camera.ScaleOk (Camera.move_to st P bw bh x y) :=
  scaleOk_update_object_pose
    (scaleOk_rebuild _ st.zoom_power_ rfl rfl)

/-- A successful `recenter_camera` establishes the scale invariant. -/
theorem scaleOk_recenter_camera {st st' : CameraState} {P : mat4}
    {bw bh : ℚ} {fuel : ℕ}
    (h : Camera.recenter_camera st P bw bh fuel = some st') :
    Camera.ScaleOk st' := by
  simp only [Camera.recenter_camera, Option.map_eq_some'] at h
  obtain ⟨stm, hm, hst⟩ := h
  rw [← hst]
  exact scaleOk_update_object_pose (scaleOk_set_initial_zoom hm)

/-- `mouse_drag_event` preserves the scale invariant. -/
theorem scaleOk_mouse_drag_event {st : CameraState} (h : Camera.ScaleOk st)
    (mx my : ℤ) : Camera.ScaleOk (Camera.mouse_drag_event st mx my) := h

/-- `demo_state` satisfies the scale invariant. -/
theorem demo_state_scaleOk : Camera.ScaleOk demo_state := rfl

/-- `demo_state` satisfies the pose invariant. -/
theorem demo_state_poseOk : Camera.PoseOk demo_state := rfl

/-- `scale_at` re-derives the pose before returning. -/
theorem poseOk_scale_at (st : CameraState) (c : vec4) (d : ℤ) :
    Camera.PoseOk (Camera.scale_at st c d) := by
  unfold Camera.scale_at
  exact poseOk_update_object_pose _

/-- `scroll_callback` re-derives the pose before returning. -/
theorem poseOk_scroll_callback (st : CameraState) (mx my ww wh d : ℤ) :
    Camera.PoseOk (Camera.scroll_callback st mx my ww wh d) :=
  poseOk_scale_at st _ d

/-- `handle_key_events` leaves the pose in sync with the camera parameters. -/
theorem poseOk_handle_key_events {st : CameraState} (h : Camera.PoseOk st)
    (ctrl up down left right : Bool) :
    Camera.PoseOk (Camera.handle_key_events st ctrl up down left right).1 := by
  unfold Camera.handle_key_events
  cases ctrl
  · exact h
  · cases hkeys : (up || down || left || right)
    · simp only [Bool.true_eq_false, if_true, hkeys, if_false]
      exact h
    · simp only [if_true, hkeys]
      exact poseOk_update_object_pose _

/-- `key_press_event` leaves the pose in sync with the camera parameters. -/
theorem poseOk_key_press_event {st : CameraState} (h : Camera.PoseOk st)
    (ctrl plus minus up down left right : Bool) :
    Camera.PoseOk (Camera.key_press_event st ctrl plus minus up down left right).1 := by
  unfold Camera.key_press_event
  cases ctrl
  · exact h
  · cases plus
    · cases minus
      · cases (up || down || left || right) <;> simp <;> exact h
      · simpa using poseOk_scale_at st ![0, 0, 0, 1] (-1)
    · simpa using poseOk_scale_at st ![0, 0, 0, 1] 1

/-- `mouse_drag_event` re-derives the pose before returning. -/
theorem poseOk_mouse_drag_event (st : CameraState) (mx my : ℤ) :
    Camera.PoseOk (Camera.mouse_drag_event st mx my) :=
  poseOk_update_object_pose _

/-- `move_to` re-derives the pose before returning. -/
theorem poseOk_move_to (st : CameraState) (P : mat4) (bw bh x y : ℚ) :
    Camera.PoseOk (Camera.move_to st P bw bh x y) := by
  unfold Camera.move_to
  exact poseOk_update_object_pose _

/-- A successful `recenter_camera` re-derives the pose before returning. -/
theorem poseOk_recenter_camera {st st' : CameraState} {P : mat4}
    {bw bh : ℚ} {fuel : ℕ}
    (h : Camera.recenter_camera st P bw bh fuel = some st') :
    Camera.PoseOk st' := by
  simp only [Camera.recenter_camera, Option.map_eq_some'] at h
  obtain ⟨stm, _, hst⟩ := h
  rw [← hst]
  exact poseOk_update_object_pose _

/-- A successful `post_initialize` establishes the pose relation. -/
theorem poseOk_post_initialize {st st' : CameraState} {w h : ℤ} {P : mat4}
    {bw bh : ℚ} {fuel : ℕ}
    (hpi : Camera.post_initialize st w h P bw bh fuel = some st') :
    Camera.PoseOk st' := by
  simp only [Camera.post_initialize, Option.map_eq_some'] at hpi
  obtain ⟨stm, _, hst⟩ := hpi
  rw [← hst]
  exact poseOk_update_object_pose _

/-- `window_resized` preserves the pose relation (it touches neither the pose
nor the camera parameters the pose is derived from). -/
theorem poseOk_window_resized {st : CameraState} (h : Camera.PoseOk st)
    (w hh : ℤ) : Camera.PoseOk (Camera.window_resized st w hh) := h

/-- **C2**: after every mutating Camera operation (`scale_at` — reached from
scroll or keyboard zoom —, keyboard pan in `handle_key_events`,
`set_initial_zoom`, `move_to`, `recenter_camera`, `mouse_drag_event`), the
translation entries of `scale_` are exactly zero and `scale_` is a pure
diagonal scale, provided the invariant held before the call. -/
theorem c2_scale_carries_no_position (st : CameraState) (h : Camera.ScaleOk st)
    (c : vec4) (d : ℤ) (mx my ww wh sd : ℤ)
    (ctrl plus minus up down left right : Bool)
    (P : mat4) (bw bh x y : ℚ) (fuel : ℕ) :
    (Camera.ScaleOk (Camera.scale_at st c d) ∧
      Camera.TransZero (Camera.scale_at st c d)) ∧
    (Camera.ScaleOk (Camera.scroll_callback st mx my ww wh sd) ∧
      Camera.TransZero (Camera.scroll_callback st mx my ww wh sd)) ∧
    (Camera.ScaleOk (Camera.key_press_event st ctrl plus minus up down left right).1 ∧
      Camera.TransZero (Camera.key_press_event st ctrl plus minus up down left right).1) ∧
    (Camera.ScaleOk (Camera.handle_key_events st ctrl up down left right).1 ∧
      Camera.TransZero (Camera.handle_key_events st ctrl up down left right).1) ∧
    (∀ st', Camera.set_initial_zoom st P bw bh fuel = some st' →
      Camera.ScaleOk st' ∧ Camera.TransZero st') ∧
    (Camera.ScaleOk (Camera.move_to st P bw bh x y) ∧
      Camera.TransZero (Camera.move_to st P bw bh x y)) ∧
    (∀ st', Camera.recenter_camera st P bw bh fuel = some st' →
      Camera.ScaleOk st' ∧ Camera.TransZero st') ∧
    (Camera.ScaleOk (Camera.mouse_drag_event st mx my) ∧
      Camera.TransZero (Camera.mouse_drag_event st mx my)) := by
  refine ⟨⟨?_, ?_⟩, ⟨?_, ?_⟩, ⟨?_, ?_⟩, ⟨?_, ?_⟩, ?_, ⟨?_, ?_⟩, ?_, ⟨?_, ?_⟩⟩
  · exact scaleOk_scale_at h c d
  · exact transZero_of_scaleOk (scaleOk_scale_at h c d)
  · exact scaleOk_scale_at h _ sd
  · exact transZero_of_scaleOk (scaleOk_scale_at h _ sd)
  · exact scaleOk_key_press_event h ctrl plus minus up down left right
  · exact transZero_of_scaleOk
      (scaleOk_key_press_event h ctrl plus minus up down left right)
  · exact scaleOk_handle_key_events h ctrl up down left right
  · exact transZero_of_scaleOk (scaleOk_handle_key_events h ctrl up down left right)
  · exact fun st' h' =>
      ⟨scaleOk_set_initial_zoom h', transZero_of_scaleOk (scaleOk_set_initial_zoom h')⟩
  · exact scaleOk_move_to st P bw bh x y
  · exact transZero_of_scaleOk (scaleOk_move_to st P bw bh x y)
  · exact fun st' h' =>
      ⟨scaleOk_recenter_camera h', transZero_of_scaleOk (scaleOk_recenter_camera h')⟩
  · exact scaleOk_mouse_drag_event h mx my
  · exact transZero_of_scaleOk (scaleOk_mouse_drag_event h mx my)

/-- Witness for C2 at the concrete `demo_state`. -/
theorem c2_scale_carries_no_position_witness :
    Camera.ScaleOk demo_state ∧
      (Camera.ScaleOk (Camera.scale_at demo_state ![0, 0, 0, 1] 1) ∧
        Camera.TransZero (Camera.scale_at demo_state ![0, 0, 0, 1] 1)) :=
  ⟨rfl,
    (c2_scale_carries_no_position demo_state rfl ![0, 0, 0, 1] 1 0 0 0 0 0
      false false false false false false false 1 1 1 0 0 0).1⟩

/-- **C6**: every mutating Camera call leaves the owning GameObject's pose in
sync: after the call the pose equals
`scale_ * translation(-camera_pos_x_, -camera_pos_y_, 0, 1)`; ops that change
camera parameters re-derive the pose before returning, `window_resized`
changes neither side of the relation, and `post_initialize` establishes it. -/
theorem c6_pose_synchronized (st : CameraState) (h : Camera.PoseOk st)
    (w hh : ℤ) (c : vec4) (d : ℤ) (mx my ww wh sd : ℤ)
    (ctrl plus minus up down left right : Bool)
    (P : mat4) (bw bh x y : ℚ) (fuel : ℕ) :
    Camera.PoseOk (Camera.window_resized st w hh) ∧
    Camera.PoseOk (Camera.scroll_callback st mx my ww wh sd) ∧
    Camera.PoseOk (Camera.scale_at st c d) ∧
    Camera.PoseOk (Camera.key_press_event st ctrl plus minus up down left right).1 ∧
    Camera.PoseOk (Camera.handle_key_events st ctrl up down left right).1 ∧
    Camera.PoseOk (Camera.mouse_drag_event st mx my) ∧
    Camera.PoseOk (Camera.move_to st P bw bh x y) ∧
    (∀ st', Camera.recenter_camera st P bw bh fuel = some st' →
      Camera.PoseOk st') ∧
    (∀ st', Camera.post_initialize st w hh P bw bh fuel = some st' →
      Camera.PoseOk st') :=
  ⟨poseOk_window_resized h w hh,
   poseOk_scroll_callback st mx my ww wh sd,
   poseOk_scale_at st c d,
   poseOk_key_press_event h ctrl plus minus up down left right,
   poseOk_handle_key_events h ctrl up down left right,
   poseOk_mouse_drag_event st mx my,
   poseOk_move_to st P bw bh x y,
   fun _ h' => poseOk_recenter_camera h',
   fun _ h' => poseOk_post_initialize h'⟩

/-- Witness for C6 at the concrete `demo_state`. -/
theorem c6_pose_synchronized_witness :
    Camera.PoseOk demo_state ∧
      Camera.PoseOk (Camera.window_resized demo_state 4 4) :=
  ⟨rfl,
    (c6_pose_synchronized demo_state rfl 4 4 ![0, 0, 0, 1] 1 0 0 0 0 0
      false false false false false false false 1 1 1 0 0 0).1⟩

/-- **C10**: after `post_initialize` and after every operation that rewrites
`scale_` (`set_initial_zoom`, `scale_at`, `handle_key_events`, `move_to`),
the x/y diagonal entries of `scale_` equal `zoom_factor ^ (-zoom_power_)`
(that is, `1 / compute_zoom()` by `zpow_neg`/`one_div`) and the z/w diagonal
entries equal 1. -/
theorem c10_diag_inverse_zoom (st : CameraState) (h : Camera.ScaleOk st)
    (c : vec4) (d : ℤ) (ctrl up down left right : Bool)
    (P : mat4) (bw bh x y : ℚ) (w hh : ℤ) (fuel : ℕ) :
    (∀ st', Camera.post_initialize st w hh P bw bh fuel = some st' →
      Camera.DiagZoom st') ∧
    Camera.DiagZoom (Camera.scale_at st c d) ∧
    Camera.DiagZoom (Camera.handle_key_events st ctrl up down left right).1 ∧
    (∀ st', Camera.set_initial_zoom st P bw bh fuel = some st' →
      Camera.DiagZoom st') ∧
    Camera.DiagZoom (Camera.move_to st P bw bh x y) := by
  refine ⟨fun st' h' => ?_, ?_, ?_, fun st' h' => ?_, ?_⟩
  · simp only [Camera.post_initialize, Option.map_eq_some'] at h'
    obtain ⟨stm, hm, hst⟩ := h'
    rw [← hst]
    exact diagZoom_of_scaleOk (scaleOk_update_object_pose (scaleOk_set_initial_zoom hm))
  · exact diagZoom_of_scaleOk (scaleOk_scale_at h c d)
  · exact diagZoom_of_scaleOk (scaleOk_handle_key_events h ctrl up down left right)
  · exact diagZoom_of_scaleOk (scaleOk_set_initial_zoom h')
  · exact diagZoom_of_scaleOk (scaleOk_move_to st P bw bh x y)

/-- Witness for C10 at the concrete `demo_state`. -/
theorem c10_diag_inverse_zoom_witness :
    Camera.ScaleOk demo_state ∧
      Camera.DiagZoom (Camera.scale_at demo_state ![0, 0, 0, 1] 1) :=
  ⟨rfl,
    (c10_diag_inverse_zoom demo_state rfl ![0, 0, 0, 1] 1
      false false false false false 1 1 1 0 0 4 4 0).2.1⟩

/-- The identity matrix has an affine bottom row. -/
theorem affineRow_one : Camera.AffineRow (1 : mat4) := by
  funext j
  fin_cases j <;> simp [Matrix.one_apply]

/-- The anchored-zoom core: `translate(v) * scale(dz) * translate(-v)` fixes
any point `v` with unit homogeneous coordinate. -/
theorem anchor_fixes_center (v : vec4) (hv : v 3 = 1) (dz : ℚ) :
    (mat4.translation v * mat4.scale ![dz, dz, 1, 1] *
      mat4.translation (-v)).mulVec v = v := by
  funext i
  fin_cases i <;>
    simp [mat4.translation, mat4.scale, Matrix.mul_apply, Matrix.mulVec,
      Matrix.dotProduct, Fin.sum_univ_four, hv]

/-- `apply_scale_ats` adds up the deltas in `zoom_power_`. -/
theorem apply_scale_ats_zoom_power (ds : List (vec4 × ℤ)) (st : CameraState) :
    (Camera.apply_scale_ats st ds).zoom_power_ =
      st.zoom_power_ + (ds.map Prod.snd).sum := by
  induction ds generalizing st with
  | nil => simp [Camera.apply_scale_ats]
  | cons p rest ih =>
    obtain ⟨c, d⟩ := p
    simp only [Camera.apply_scale_ats, ih, scale_at_zoom_power,
      List.map_cons, List.sum_cons]
    ring

/-- **C5**: starting from `zoom_power_ = 0`, any sequence of `scale_at` calls
with deltas `d1, ..., dn` leaves `zoom_power_ = d1 + ... + dn`, and
`compute_zoom()` afterwards equals `zoom_factor ^ (d1 + ... + dn)`. -/
theorem c5_zoom_power_additive (st : CameraState) (ds : List (vec4 × ℤ))
    (h : st.zoom_power_ = 0) :
    (Camera.apply_scale_ats st ds).zoom_power_ = (ds.map Prod.snd).sum ∧
    Camera.compute_zoom (Camera.apply_scale_ats st ds) =
      zoom_factor ^ (ds.map Prod.snd).sum := by
  have hzp := apply_scale_ats_zoom_power ds st
  rw [h, zero_add] at hzp
  exact ⟨hzp, by rw [Camera.compute_zoom, hzp]⟩

/-- Witness for C5: two +1 zooms and one -2 zoom from `demo_state`. -/
theorem c5_zoom_power_additive_witness :
    demo_state.zoom_power_ = 0 ∧
      (Camera.apply_scale_ats demo_state
          [(![0, 0, 0, 1], 1), (![0, 0, 0, 1], 1), (![0, 0, 0, 1], -2)]).zoom_power_ =
        ([(![0, 0, 0, 1], 1), (![0, 0, 0, 1], 1),
          (![0, 0, 0, 1], -2)].map Prod.snd).sum :=
  ⟨rfl,
    (c5_zoom_power_additive demo_state
      [(![0, 0, 0, 1], 1), (![0, 0, 0, 1], 1), (![0, 0, 0, 1], -2)] rfl).1⟩

/-- **C1**: `scale_at(center_ndc, delta)` computes
`delta_zoom = zoom_factor ^ (-delta)`, maps `center_ndc` through the inverse
of `scale_` and through the pose composed with the inverse projection to
obtain `center_pos`, replaces `scale_` with
`scale_ * translate(center_pos) * scale(delta_zoom) * translate(-center_pos)`
(translation entries then zeroed, cf. C2); the anchor composition fixes
`center_pos`, so the anchor's image under the new scale matches its image
under the old one; `delta` is added to `zoom_power_`; and the owning
GameObject's pose is recomputed as
`scale_ * translate(-camera_pos_x_, -camera_pos_y_, 0, 1)`. -/
theorem c1_scale_at_anchored_zoom (st : CameraState) (s : ℚ)
    (hs : st.scale_ = mat4.scale ![s, s, 1, 1]) (hs0 : s ≠ 0)
    (hpose : Camera.AffineRow st.object_pose)
    (Q : mat4) (hQ : st.projection * Q = 1) (hQ3 : Camera.AffineRow Q)
    (c : vec4) (hc : c 3 = 1) (d : ℤ) :
    (Camera.scale_at st c d).zoom_power_ = st.zoom_power_ + d ∧
    (Camera.scale_at st c d).scale_ =
      Camera.zero_xy_translation
        (st.scale_ *
          mat4.translation
            ((mat4.inv st.scale_ *
              (st.object_pose * mat4.inv st.projection)).mulVec c) *
          mat4.scale ![zoom_factor ^ (-d), zoom_factor ^ (-d), 1, 1] *
          mat4.translation
            (-((mat4.inv st.scale_ *
              (st.object_pose * mat4.inv st.projection)).mulVec c))) ∧
    (mat4.translation
        ((mat4.inv st.scale_ *
          (st.object_pose * mat4.inv st.projection)).mulVec c) *
      mat4.scale ![zoom_factor ^ (-d), zoom_factor ^ (-d), 1, 1] *
      mat4.translation
        (-((mat4.inv st.scale_ *
          (st.object_pose * mat4.inv st.projection)).mulVec c))).mulVec
      ((mat4.inv st.scale_ * (st.object_pose * mat4.inv st.projection)).mulVec c) =
    (mat4.inv st.scale_ * (st.object_pose * mat4.inv st.projection)).mulVec c ∧
    (st.scale_ *
      mat4.translation
        ((mat4.inv st.scale_ *
          (st.object_pose * mat4.inv st.projection)).mulVec c) *
      mat4.scale ![zoom_factor ^ (-d), zoom_factor ^ (-d), 1, 1] *
      mat4.translation
        (-((mat4.inv st.scale_ *
          (st.object_pose * mat4.inv st.projection)).mulVec c))).mulVec
      ((mat4.inv st.scale_ * (st.object_pose * mat4.inv st.projection)).mulVec c) =
    st.scale_.mulVec
      ((mat4.inv st.scale_ * (st.object_pose * mat4.inv st.projection)).mulVec c) ∧
    Camera.PoseOk (Camera.scale_at st c d) := by
  set cp := (mat4.inv st.scale_ * (st.object_pose * mat4.inv st.projection)).mulVec c
    with hcpdef
  have hcp3 : cp 3 = 1 := by
    apply affineRow_mulVec _ hc
    apply affineRow_mul
    · rw [hs, inv_scale s hs0]
      exact affineRow_scale _ _ _
    · apply affineRow_mul hpose
      rw [mat4.inv_eq hQ]
      exact hQ3
  have hfix :
      (mat4.translation cp * mat4.scale ![zoom_factor ^ (-d), zoom_factor ^ (-d), 1, 1] *
        mat4.translation (-cp)).mulVec cp = cp :=
    anchor_fixes_center cp hcp3 _
  have hanchor :
      (st.scale_ * mat4.translation cp *
        mat4.scale ![zoom_factor ^ (-d), zoom_factor ^ (-d), 1, 1] *
        mat4.translation (-cp)).mulVec cp = st.scale_.mulVec cp := by
    have h4 := congrArg st.scale_.mulVec hfix
    rw [Matrix.mulVec_mulVec] at h4
    simpa [mul_assoc] using h4
  exact ⟨rfl, rfl, hfix, hanchor, poseOk_scale_at st c d⟩

/-- Witness for C1 at the concrete `demo_state` with anchor `(0,0,0,1)` and
delta 1. -/
theorem c1_scale_at_anchored_zoom_witness :
    (demo_state.scale_ =
      mat4.scale ![(zoom_factor ^ (0 : ℤ))⁻¹, (zoom_factor ^ (0 : ℤ))⁻¹, 1, 1]) ∧
    ((zoom_factor ^ (0 : ℤ))⁻¹ ≠ 0) ∧
    Camera.AffineRow demo_state.object_pose ∧
    (demo_state.projection * 1 = 1) ∧
    Camera.AffineRow (1 : mat4) ∧
    ((![0, 0, 0, 1] : vec4) 3 = 1) ∧
    (Camera.scale_at demo_state ![0, 0, 0, 1] 1).zoom_power_ =
      demo_state.zoom_power_ + 1 :=
  ⟨rfl, by simp,
   affineRow_mul (affineRow_scale _ _ _) (affineRow_translation _),
   mul_one _, affineRow_one, rfl,
   (c1_scale_at_anchored_zoom demo_state ((zoom_factor ^ (0 : ℤ))⁻¹) rfl (by simp)
     (affineRow_mul (affineRow_scale _ _ _) (affineRow_translation _))
     1 (mul_one _) affineRow_one ![0, 0, 0, 1] rfl 1).1⟩

/-- Soundness of the zoom-in loop: a returned exponent is the first one, from
`p` upwards, at which the strict fit fails; every exponent strictly below it
(and at least `p`) still fits strictly. -/
theorem zoom_in_loop_sound (cw ch bx bV : ℚ) :
    ∀ (fuel : ℕ) (p q : ℤ),
      Camera.zoom_in_loop cw ch bx bV p fuel = some q →
      p ≤ q ∧
      ¬(cw > zoom_factor ^ q * bx ∧ ch > zoom_factor ^ q * bV) ∧
      ∀ j, p ≤ j → j < q →
        (cw > zoom_factor ^ j * bx ∧ ch > zoom_factor ^ j * bV) := by
  intro fuel
  induction fuel with
  | zero =>
    intro p q h
    simp [Camera.zoom_in_loop] at h
  | succ n ih =>
    intro p q h
    simp only [Camera.zoom_in_loop] at h
    split_ifs at h with hc
    · obtain ⟨hpq, hq, hall⟩ := ih (p + 1) q h
      refine ⟨by omega, hq, ?_⟩
      intro j hpj hjq
      rcases eq_or_lt_of_le hpj with heq | hlt
      · rw [← heq]
        exact hc
      · exact hall j (by omega) hjq
    · injection h with h
      subst h
      exact ⟨le_refl _, hc, fun j h1 h2 => absurd (lt_of_le_of_lt h1 h2) (lt_irrefl _)⟩

/-- Soundness of the zoom-out loop: a returned exponent is the first one, from
`p` downwards, at which the buffer fits (non-strictly); every exponent
strictly above it (and at most `p`) still overflows. -/
theorem zoom_out_loop_sound (cw ch bx bV : ℚ) :
    ∀ (fuel : ℕ) (p q : ℤ),
      Camera.zoom_out_loop cw ch bx bV p fuel = some q →
      q ≤ p ∧
      ¬(cw < zoom_factor ^ q * bx ∨ ch < zoom_factor ^ q * bV) ∧
      ∀ j, q < j → j ≤ p →
        (cw < zoom_factor ^ j * bx ∨ ch < zoom_factor ^ j * bV) := by
  intro fuel
  induction fuel with
  | zero =>
    intro p q h
    simp [Camera.zoom_out_loop] at h
  | succ n ih =>
    intro p q h
    simp only [Camera.zoom_out_loop] at h
    split_ifs at h with hc
    · obtain ⟨hpq, hq, hall⟩ := ih (p - 1) q h
      refine ⟨by omega, hq, ?_⟩
      intro j hqj hjp
      rcases eq_or_lt_of_le hjp with heq | hlt
      · rw [heq]
        exact hc
      · exact hall j hqj (by omega)
    · injection h with h
      subst h
      exact ⟨le_refl _, hc, fun j h1 h2 => absurd (lt_of_lt_of_le h1 h2) (lt_irrefl _)⟩

/-- Completeness of the zoom-in loop: if the strict fit holds for the `n`
exponents from `p` on and fails at `p + n`, the loop returns `p + n` given
more than `n` units of fuel. -/
theorem zoom_in_loop_complete (cw ch bx bV : ℚ) :
    ∀ (n : ℕ) (p : ℤ) (fuel : ℕ),
      (∀ j, p ≤ j → j < p + n →
        (cw > zoom_factor ^ j * bx ∧ ch > zoom_factor ^ j * bV)) →
      ¬(cw > zoom_factor ^ (p + n) * bx ∧ ch > zoom_factor ^ (p + n) * bV) →
      n < fuel →
      Camera.zoom_in_loop cw ch bx bV p fuel = some (p + n) := by
  intro n
  induction n with
  | zero =>
    intro p fuel hbelow hfail hfuel
    obtain ⟨f, rfl⟩ : ∃ f, fuel = f + 1 := ⟨fuel - 1, by omega⟩
    simp only [Camera.zoom_in_loop]
    rw [if_neg (by simpa using hfail)]
    simp
  | succ n ih =>
    intro p fuel hbelow hfail hfuel
    obtain ⟨f, rfl⟩ : ∃ f, fuel = f + 1 := ⟨fuel - 1, by omega⟩
    simp only [Camera.zoom_in_loop]
    push_cast at hbelow hfail ⊢
    rw [if_pos (hbelow p (le_refl p) (by omega))]
    rw [show p + ((n : ℤ) + 1) = (p + 1) + n by ring] at hfail ⊢
    exact ih (p + 1) f
      (fun j h1 h2 => hbelow j (by omega) (by omega))
      hfail (by omega)

/-- Termination of the zoom-in loop: once some exponent at distance at most
`n` above `p` fails the strict fit, the loop halts within `n + 1` steps and
returns an exponent no larger than `p + n`. -/
theorem zoom_in_loop_halts (cw ch bx bV : ℚ) :
    ∀ (n : ℕ) (p : ℤ) (fuel : ℕ),
      ¬(cw > zoom_factor ^ (p + n) * bx ∧ ch > zoom_factor ^ (p + n) * bV) →
      n < fuel →
      ∃ q, Camera.zoom_in_loop cw ch bx bV p fuel = some q ∧ q ≤ p + n := by
  intro n
  induction n with
  | zero =>
    intro p fuel hfail hfuel
    obtain ⟨f, rfl⟩ : ∃ f, fuel = f + 1 := ⟨fuel - 1, by omega⟩
    simp only [Camera.zoom_in_loop]
    rw [if_neg (by simpa using hfail)]
    exact ⟨p, rfl, by simp⟩
  | succ n ih =>
    intro p fuel hfail hfuel
    obtain ⟨f, rfl⟩ : ∃ f, fuel = f + 1 := ⟨fuel - 1, by omega⟩
    simp only [Camera.zoom_in_loop]
    push_cast at hfail ⊢
    by_cases hc : cw > zoom_factor ^ p * bx ∧ ch > zoom_factor ^ p * bV
    · rw [if_pos hc]
      rw [show p + ((n : ℤ) + 1) = (p + 1) + n by ring] at hfail
      obtain ⟨q, hq, hle⟩ := ih (p + 1) f hfail (by omega)
      exact ⟨q, hq, by omega⟩
    · rw [if_neg hc]
      exact ⟨p, rfl, by omega⟩

/-- Termination of the zoom-out loop: once some exponent at distance at most
`n` below `p` makes the buffer fit, the loop halts within `n + 1` steps. -/
theorem zoom_out_loop_halts (cw ch bx bV : ℚ) :
    ∀ (n : ℕ) (p : ℤ) (fuel : ℕ),
      ¬(cw < zoom_factor ^ (p - n) * bx ∨ ch < zoom_factor ^ (p - n) * bV) →
      n < fuel →
      ∃ q, Camera.zoom_out_loop cw ch bx bV p fuel = some q ∧ p - n ≤ q := by
  intro n
  induction n with
  | zero =>
    intro p fuel hfit hfuel
    obtain ⟨f, rfl⟩ : ∃ f, fuel = f + 1 := ⟨fuel - 1, by omega⟩
    simp only [Camera.zoom_out_loop]
    rw [if_neg (by simpa using hfit)]
    exact ⟨p, rfl, by simp⟩
  | succ n ih =>
    intro p fuel hfit hfuel
    obtain ⟨f, rfl⟩ : ∃ f, fuel = f + 1 := ⟨fuel - 1, by omega⟩
    simp only [Camera.zoom_out_loop]
    push_cast at hfit ⊢
    by_cases hc : cw < zoom_factor ^ p * bx ∨ ch < zoom_factor ^ p * bV
    · rw [if_pos hc]
      rw [show p - ((n : ℤ) + 1) = (p - 1) - n by ring] at hfit
      obtain ⟨q, hq, hle⟩ := ih (p - 1) f hfit (by omega)
      exact ⟨q, hq, by omega⟩
    · rw [if_neg hc]
      exact ⟨p, rfl, by omega⟩

/-- Once the strict fit fails at `q`, it fails at every exponent above `q`
(buffer extents nonnegative, zoom base above 1). -/
theorem strict_fit_mono {cw ch bx bV : ℚ} (hbx : 0 ≤ bx) (hbV : 0 ≤ bV)
    {q j : ℤ} (hqj : q ≤ j)
    (hq : ¬(cw > zoom_factor ^ q * bx ∧ ch > zoom_factor ^ q * bV)) :
    ¬(cw > zoom_factor ^ j * bx ∧ ch > zoom_factor ^ j * bV) := by
  have hz : zoom_factor ^ q ≤ zoom_factor ^ j :=
    zpow_le_zpow_right₀ one_lt_zoom_factor.le hqj
  rcases not_and_or.mp hq with h | h
  · refine not_and_or.mpr (Or.inl ?_)
    rw [not_lt] at h ⊢
    exact le_trans h (mul_le_mul_of_nonneg_right hz hbx)
  · refine not_and_or.mpr (Or.inr ?_)
    rw [not_lt] at h ⊢
    exact le_trans h (mul_le_mul_of_nonneg_right hz hbV)

/-- Once the non-strict fit fails at `q`, it fails at every exponent above
`q`. -/
theorem le_fit_mono {cw ch bx bV : ℚ} (hbx : 0 ≤ bx) (hbV : 0 ≤ bV)
    {q j : ℤ} (hqj : q ≤ j)
    (hq : ¬(zoom_factor ^ q * bx ≤ cw ∧ zoom_factor ^ q * bV ≤ ch)) :
    ¬(zoom_factor ^ j * bx ≤ cw ∧ zoom_factor ^ j * bV ≤ ch) := by
  have hz : zoom_factor ^ q ≤ zoom_factor ^ j :=
    zpow_le_zpow_right₀ one_lt_zoom_factor.le hqj
  rcases not_and_or.mp hq with h | h
  · refine not_and_or.mpr (Or.inl ?_)
    rw [not_le] at h ⊢
    exact lt_of_lt_of_le h (mul_le_mul_of_nonneg_right hz hbx)
  · refine not_and_or.mpr (Or.inr ?_)
    rw [not_le] at h ⊢
    exact lt_of_lt_of_le h (mul_le_mul_of_nonneg_right hz hbV)

/-- The strict fit is downward closed in the exponent. -/
theorem strict_fit_down {cw ch bx bV : ℚ} (hbx : 0 ≤ bx) (hbV : 0 ≤ bV)
    {q j : ℤ} (hjq : j ≤ q)
    (hq : cw > zoom_factor ^ q * bx ∧ ch > zoom_factor ^ q * bV) :
    cw > zoom_factor ^ j * bx ∧ ch > zoom_factor ^ j * bV := by
  have hz : zoom_factor ^ j ≤ zoom_factor ^ q :=
    zpow_le_zpow_right₀ one_lt_zoom_factor.le hjq
  exact ⟨lt_of_le_of_lt (mul_le_mul_of_nonneg_right hz hbx) hq.1,
         lt_of_le_of_lt (mul_le_mul_of_nonneg_right hz hbV) hq.2⟩

/-- Concrete run of `set_initial_zoom` on the boundary buffer
`(80000/121, 1)` with an 800x800 canvas: the zoom-in loop stops at exponent 2
because `zoom_factor^2 * 80000/121 = 800` exactly, and the chosen power is
1. -/
theorem c3_cex_run :
    Camera.set_initial_zoom canvas800_state 1 (80000 / 121) 1 3 =
      some c3_cex_result := by
  have hloop : Camera.zoom_in_loop 800 800 (80000 / 121) 1 1 3 = some 2 := by
    have h := zoom_in_loop_complete 800 800 (80000 / 121) 1 1 1 3
      (by
        intro j h1 h2
        have hj : j = 1 := by push_cast at h2; omega
        subst hj
        constructor <;> norm_num [zoom_factor])
      (by push_cast; norm_num [zoom_factor])
      (by norm_num)
    simpa using h
  simp only [Camera.set_initial_zoom, Matrix.one_mulVec, canvas800_state]
  norm_num [Matrix.cons_val_zero, Matrix.cons_val_one, Matrix.head_cons, abs_of_pos]
  refine ⟨2, ?_, ?_⟩
  · exact hloop
  · norm_num [c3_cex_result, canvas800_state, one_div]

/-- Concrete run of `set_initial_zoom` on the spec's buffer `(200, 100)` with
an 800x800 canvas: the loop stops at exponent 15 and the chosen power is
14. -/
theorem c3_fit_run :
    Camera.set_initial_zoom canvas800_state 1 200 100 16 = some c3_fit_result := by
  have hloop : Camera.zoom_in_loop 800 800 200 100 1 16 = some 15 := by
    have h := zoom_in_loop_complete 800 800 200 100 14 1 16
      (by
        intro j h1 h2
        refine strict_fit_down (by norm_num) (by norm_num)
          (show j ≤ 14 by push_cast at h2; omega) ?_
        constructor <;> norm_num [zoom_factor])
      (by push_cast; norm_num [zoom_factor])
      (by norm_num)
    simpa using h
  simp only [Camera.set_initial_zoom, Matrix.one_mulVec, canvas800_state]
  norm_num [Matrix.cons_val_zero, Matrix.cons_val_one, Matrix.head_cons, abs_of_pos]
  refine ⟨15, ?_, ?_⟩
  · exact hloop
  · norm_num [c3_fit_result, canvas800_state, one_div]

/-- Concrete run of `set_initial_zoom` on a buffer of extents
`(19/10, 19/10)` with a 2x2 canvas: the loop stops immediately at exponent 1
and the chosen power is 0. -/
theorem c3_small_run :
    Camera.set_initial_zoom demo_state 1 (19 / 10) (19 / 10) 1 =
      some c3_small_result := by
  have hloop : Camera.zoom_in_loop 2 2 (19 / 10) (19 / 10) 1 1 = some 1 := by
    have h := zoom_in_loop_complete 2 2 (19 / 10) (19 / 10) 0 1 1
      (by
        intro j h1 h2
        push_cast at h2
        exact (by omega : False).elim)
      (by push_cast; norm_num [zoom_factor])
      (by norm_num)
    simpa using h
  simp only [Camera.set_initial_zoom, Matrix.one_mulVec, demo_state]
  norm_num [Matrix.cons_val_zero, Matrix.cons_val_one, Matrix.head_cons, abs_of_pos]
  refine ⟨1, ?_, ?_⟩
  · exact hloop
  · norm_num [c3_small_result, demo_state, one_div]

/-- **C3 counterexample**: on the boundary buffer `(80000/121, 1)` (whose
width scaled by `zoom_factor^2` equals the 800-pixel canvas exactly),
`set_initial_zoom` picks `zoom_power_ = 1`, yet `k = 2` also satisfies
`zoom_factor^k * buffer <= canvas` in both dimensions — so the chosen power
is not the maximal integer satisfying the claimed non-strict fit. -/
theorem c3_not_le_maximal_counterexample :
    Camera.set_initial_zoom canvas800_state 1 (80000 / 121) 1 3 =
      some c3_cex_result ∧
    c3_cex_result.zoom_power_ = 1 ∧
    zoom_factor ^ (2 : ℤ) * |((1 : mat4).mulVec ![80000 / 121, 1, 0, 1]) 0| ≤
      (canvas800_state.canvas_width_ : ℚ) ∧
    zoom_factor ^ (2 : ℤ) * |((1 : mat4).mulVec ![80000 / 121, 1, 0, 1]) 1| ≤
      (canvas800_state.canvas_height_ : ℚ) ∧
    (1 : ℤ) < 2 :=
  ⟨c3_cex_run, rfl,
   by norm_num [canvas800_state, Matrix.one_mulVec, Matrix.cons_val_zero,
     abs_of_pos, zoom_factor],
   by norm_num [canvas800_state, Matrix.one_mulVec, Matrix.cons_val_one,
     Matrix.head_cons, zoom_factor],
   by norm_num⟩

/-- **C3 (amended)**: for positive transformed buffer extents,
`set_initial_zoom` picks the maximal integer power for a *strict* fit when
the canvas strictly exceeds the buffer in both dimensions (the zoom-in
branch undershoots at exact equality), and the maximal integer power for the
non-strict fit otherwise; in particular for buffer `(200, 100)` and canvas
`(800, 800)` it picks power 14, which satisfies `zoom * 200 <= 800` and
`zoom * 100 <= 800` while no larger integer power does. -/
theorem c3_autofit_maximal_fit :
    (∀ (st st' : CameraState) (P : mat4) (bw bh : ℚ) (fuel : ℕ)
        (bx bV cw ch : ℚ),
      bx = |(P.mulVec ![bw, bh, 0, 1]) 0| →
      bV = |(P.mulVec ![bw, bh, 0, 1]) 1| →
      cw = (st.canvas_width_ : ℚ) →
      ch = (st.canvas_height_ : ℚ) →
      0 < bx → 0 < bV →
      Camera.set_initial_zoom st P bw bh fuel = some st' →
      ((cw > bx ∧ ch > bV) →
        (zoom_factor ^ st'.zoom_power_ * bx < cw ∧
         zoom_factor ^ st'.zoom_power_ * bV < ch) ∧
        ∀ j : ℤ, st'.zoom_power_ < j →
          ¬(zoom_factor ^ j * bx < cw ∧ zoom_factor ^ j * bV < ch)) ∧
      (¬(cw > bx ∧ ch > bV) →
        (zoom_factor ^ st'.zoom_power_ * bx ≤ cw ∧
         zoom_factor ^ st'.zoom_power_ * bV ≤ ch) ∧
        ∀ j : ℤ, st'.zoom_power_ < j →
          ¬(zoom_factor ^ j * bx ≤ cw ∧ zoom_factor ^ j * bV ≤ ch))) ∧
    (Camera.set_initial_zoom canvas800_state 1 200 100 16 = some c3_fit_result ∧
     c3_fit_result.zoom_power_ = 14 ∧
     zoom_factor ^ (14 : ℤ) * 200 ≤ 800 ∧
     zoom_factor ^ (14 : ℤ) * 100 ≤ 800 ∧
     ∀ j : ℤ, 14 < j →
       ¬(zoom_factor ^ j * 200 ≤ 800 ∧ zoom_factor ^ j * 100 ≤ 800)) := by
  constructor
  · intro st st' P bw bh fuel bx bV cw ch hbx hbV hcw hch hbx0 hbV0 hrun
    simp only [Camera.set_initial_zoom, Option.map_eq_some'] at hrun
    rw [← hbx, ← hbV, ← hcw, ← hch] at hrun
    obtain ⟨zp, hzp, hst⟩ := hrun
    have hzp' : st'.zoom_power_ = zp := by rw [← hst]
    constructor
    · intro hin
      rw [if_pos hin, Option.map_eq_some'] at hzp
      obtain ⟨q, hq, hqzp⟩ := hzp
      obtain ⟨h1q, hqfail, hall⟩ := zoom_in_loop_sound cw ch bx bV fuel 1 q hq
      constructor
      · rw [hzp', ← hqzp]
        rcases eq_or_lt_of_le h1q with heq | hlt
        · rw [← heq]
          simpa using hin
        · exact hall (q - 1) (by omega) (by omega)
      · intro j hj
        rw [hzp', ← hqzp] at hj
        exact strict_fit_mono hbx0.le hbV0.le (by omega) hqfail
    · intro hnotin
      rw [if_neg hnotin] at hzp
      by_cases hout : (cw < bx ∨ ch < bV)
      · rw [if_pos hout] at hzp
        obtain ⟨hqp, hgood, hbad⟩ := zoom_out_loop_sound cw ch bx bV fuel (-1) zp hzp
        push_neg at hgood
        constructor
        · rw [hzp']
          exact hgood
        · intro j hj
          rw [hzp'] at hj
          by_cases hjneg : j ≤ -1
          · rcases hbad j hj hjneg with h | h
            · exact fun hc => absurd hc.1 (not_le.mpr h)
            · exact fun hc => absurd hc.2 (not_le.mpr h)
          · apply le_fit_mono hbx0.le hbV0.le (show (0 : ℤ) ≤ j by omega)
            simp only [zpow_zero, one_mul]
            rcases hout with h | h
            · exact fun hc => absurd hc.1 (not_le.mpr h)
            · exact fun hc => absurd hc.2 (not_le.mpr h)
      · rw [if_neg hout] at hzp
        injection hzp with hzp0
        push_neg at hout
        constructor
        · rw [hzp', ← hzp0]
          simpa using ⟨hout.1, hout.2⟩
        · intro j hj
          rw [hzp', ← hzp0] at hj
          have hz1 : zoom_factor ^ (1 : ℤ) ≤ zoom_factor ^ j :=
            zpow_le_zpow_right₀ one_lt_zoom_factor.le (by omega)
          have hzgt : (1 : ℚ) < zoom_factor ^ j := by
            calc (1 : ℚ) < zoom_factor := one_lt_zoom_factor
              _ = zoom_factor ^ (1 : ℤ) := (zpow_one _).symm
              _ ≤ zoom_factor ^ j := hz1
          rcases not_and_or.mp hnotin with h | h
          · intro hc
            have h1 : zoom_factor ^ j * bx ≤ bx := le_trans hc.1 (not_lt.mp h)
            have h2 : bx < zoom_factor ^ j * bx := by
              calc bx = 1 * bx := (one_mul bx).symm
                _ < zoom_factor ^ j * bx := mul_lt_mul_of_pos_right hzgt hbx0
            exact absurd h1 (not_le.mpr h2)
          · intro hc
            have h1 : zoom_factor ^ j * bV ≤ bV := le_trans hc.2 (not_lt.mp h)
            have h2 : bV < zoom_factor ^ j * bV := by
              calc bV = 1 * bV := (one_mul bV).symm
                _ < zoom_factor ^ j * bV := mul_lt_mul_of_pos_right hzgt hbV0
            exact absurd h1 (not_le.mpr h2)
  · refine ⟨c3_fit_run, rfl, by norm_num [zoom_factor], by norm_num [zoom_factor], ?_⟩
    intro j hj
    apply le_fit_mono (by norm_num : (0 : ℚ) ≤ 200) (by norm_num : (0 : ℚ) ≤ 100)
      (show (15 : ℤ) ≤ j by omega)
    norm_num [zoom_factor]

/-- Witness for C3 (amended) at the concrete small auto-fit run. -/
theorem c3_autofit_maximal_fit_witness :
    (0 : ℚ) < |((1 : mat4).mulVec ![19 / 10, 19 / 10, 0, 1]) 0| ∧
    (zoom_factor ^ c3_small_result.zoom_power_ *
        |((1 : mat4).mulVec ![19 / 10, 19 / 10, 0, 1]) 0| <
      (demo_state.canvas_width_ : ℚ) ∧
     zoom_factor ^ c3_small_result.zoom_power_ *
        |((1 : mat4).mulVec ![19 / 10, 19 / 10, 0, 1]) 1| <
      (demo_state.canvas_height_ : ℚ)) :=
  ⟨by norm_num [Matrix.one_mulVec, Matrix.cons_val_zero],
   ((c3_autofit_maximal_fit.1 demo_state c3_small_result 1 (19 / 10) (19 / 10) 1
      _ _ _ _ rfl rfl rfl rfl
      (by norm_num [Matrix.one_mulVec, Matrix.cons_val_zero])
      (by norm_num [Matrix.one_mulVec, Matrix.cons_val_one, Matrix.head_cons])
      c3_small_run).1
      (by norm_num [demo_state, Matrix.one_mulVec, Matrix.cons_val_zero,
        Matrix.cons_val_one, Matrix.head_cons, abs_of_pos])).1⟩

/-- **C7**: both loops of `set_initial_zoom` terminate.  Each branch moves the
exponent strictly monotonically in one direction, and the number of
iterations is bounded by any `n` whose `zoom_factor`-power covers the
canvas/buffer ratio (the logarithmic bound, in exponential form); for
positive buffer extents and a positive canvas some finite fuel therefore
always suffices for `set_initial_zoom` to return. -/
theorem c7_autofit_terminates :
    (∀ (cw ch bx bV : ℚ) (n : ℕ) (p : ℤ) (fuel : ℕ),
      ¬(cw > zoom_factor ^ (p + n) * bx ∧ ch > zoom_factor ^ (p + n) * bV) →
      n < fuel →
      ∃ q, Camera.zoom_in_loop cw ch bx bV p fuel = some q ∧ q ≤ p + n) ∧
    (∀ (cw ch bx bV : ℚ) (n : ℕ) (p : ℤ) (fuel : ℕ),
      ¬(cw < zoom_factor ^ (p - n) * bx ∨ ch < zoom_factor ^ (p - n) * bV) →
      n < fuel →
      ∃ q, Camera.zoom_out_loop cw ch bx bV p fuel = some q ∧ p - n ≤ q) ∧
    (∀ (st : CameraState) (P : mat4) (bw bh bx bV : ℚ),
      bx = |(P.mulVec ![bw, bh, 0, 1]) 0| →
      bV = |(P.mulVec ![bw, bh, 0, 1]) 1| →
      0 < bx → 0 < bV →
      0 < (st.canvas_width_ : ℚ) → 0 < (st.canvas_height_ : ℚ) →
      ∃ fuel st', Camera.set_initial_zoom st P bw bh fuel = some st') := by
  refine ⟨fun cw ch bx bV n p fuel h1 h2 => zoom_in_loop_halts cw ch bx bV n p fuel h1 h2,
    fun cw ch bx bV n p fuel h1 h2 => zoom_out_loop_halts cw ch bx bV n p fuel h1 h2,
    ?_⟩
  intro st P bw bh bx bV hbx hbV hbx0 hbV0 hcw0 hch0
  by_cases hin : ((st.canvas_width_ : ℚ) > bx ∧ (st.canvas_height_ : ℚ) > bV)
  · obtain ⟨n, hn⟩ :=
      pow_unbounded_of_one_lt ((st.canvas_width_ : ℚ) / bx) one_lt_zoom_factor
    have h1 : (st.canvas_width_ : ℚ) < zoom_factor ^ (n : ℤ) * bx := by
      rw [div_lt_iff₀ hbx0] at hn
      rwa [← zpow_natCast] at hn
    have hfail :
        ¬((st.canvas_width_ : ℚ) > zoom_factor ^ ((1 : ℤ) + n) * bx ∧
          (st.canvas_height_ : ℚ) > zoom_factor ^ ((1 : ℤ) + n) * bV) := by
      intro hc
      have h2 : zoom_factor ^ (n : ℤ) * bx ≤ zoom_factor ^ ((1 : ℤ) + n) * bx :=
        mul_le_mul_of_nonneg_right
          (zpow_le_zpow_right₀ one_lt_zoom_factor.le (by omega)) hbx0.le
      exact absurd hc.1 (not_lt.mpr (le_of_lt (lt_of_lt_of_le h1 h2)))
    obtain ⟨q, hq, _⟩ := zoom_in_loop_halts (st.canvas_width_ : ℚ)
      (st.canvas_height_ : ℚ) bx bV n 1 (n + 1) hfail (by omega)
    refine ⟨n + 1, ?_⟩
    simp only [Camera.set_initial_zoom]
    rw [← hbx, ← hbV, if_pos hin, hq]
    exact ⟨_, rfl⟩
  · by_cases hout : ((st.canvas_width_ : ℚ) < bx ∨ (st.canvas_height_ : ℚ) < bV)
    · obtain ⟨m1, hm1⟩ :=
        pow_unbounded_of_one_lt (bx / (st.canvas_width_ : ℚ)) one_lt_zoom_factor
      obtain ⟨m2, hm2⟩ :=
        pow_unbounded_of_one_lt (bV / (st.canvas_height_ : ℚ)) one_lt_zoom_factor
      have hb1 : bx < zoom_factor ^ (m1 : ℤ) * (st.canvas_width_ : ℚ) := by
        rw [div_lt_iff₀ hcw0] at hm1
        rwa [← zpow_natCast] at hm1
      have hb2 : bV < zoom_factor ^ (m2 : ℤ) * (st.canvas_height_ : ℚ) := by
        rw [div_lt_iff₀ hch0] at hm2
        rwa [← zpow_natCast] at hm2
      set n := max m1 m2 with hndef
      have hkey : ∀ (b cv : ℚ) (m : ℕ), 0 < cv → m ≤ n →
          b < zoom_factor ^ (m : ℤ) * cv →
          zoom_factor ^ ((-1 : ℤ) - n) * b ≤ cv := by
        intro b cv m hcv hmn hb
        have hmono : zoom_factor ^ (m : ℤ) ≤ zoom_factor ^ ((1 : ℤ) + n) :=
          zpow_le_zpow_right₀ one_lt_zoom_factor.le (by omega)
        have hb' : b < zoom_factor ^ ((1 : ℤ) + n) * cv :=
          lt_of_lt_of_le hb (mul_le_mul_of_nonneg_right hmono hcv.le)
        have hzpos : (0 : ℚ) < zoom_factor ^ ((-1 : ℤ) - n) :=
          zpow_pos zoom_factor_pos _
        have := mul_lt_mul_of_pos_left hb' hzpos
        calc zoom_factor ^ ((-1 : ℤ) - n) * b
            ≤ zoom_factor ^ ((-1 : ℤ) - n) * (zoom_factor ^ ((1 : ℤ) + n) * cv) :=
              le_of_lt this
          _ = cv := by
              rw [← mul_assoc, ← zpow_add₀ zoom_factor_ne_zero]
              norm_num
      have hfit :
          ¬((st.canvas_width_ : ℚ) < zoom_factor ^ ((-1 : ℤ) - n) * bx ∨
            (st.canvas_height_ : ℚ) < zoom_factor ^ ((-1 : ℤ) - n) * bV) := by
        push_neg
        exact ⟨hkey bx _ m1 hcw0 (le_max_left m1 m2) hb1,
               hkey bV _ m2 hch0 (le_max_right m1 m2) hb2⟩
      obtain ⟨q, hq, _⟩ := zoom_out_loop_halts (st.canvas_width_ : ℚ)
        (st.canvas_height_ : ℚ) bx bV n (-1) (n + 1) (by
          rw [show (-1 : ℤ) - n = (-1 : ℤ) - n from rfl]
          exact hfit) (by omega)
      refine ⟨n + 1, ?_⟩
      simp only [Camera.set_initial_zoom]
      rw [← hbx, ← hbV, if_neg hin, if_pos hout, hq]
      exact ⟨_, rfl⟩
    · refine ⟨0, ?_⟩
      simp only [Camera.set_initial_zoom]
      rw [← hbx, ← hbV, if_neg hin, if_neg hout]
      exact ⟨_, rfl⟩

/-- Witness for C7: the zoom-in bound at a concrete canvas/buffer, the
zoom-out bound at its mirror image, and existence of fuel for a concrete
auto-fit. -/
theorem c7_autofit_terminates_witness :
    (¬((2 : ℚ) > zoom_factor ^ ((1 : ℤ) + (8 : ℕ)) * 1 ∧
       (2 : ℚ) > zoom_factor ^ ((1 : ℤ) + (8 : ℕ)) * 1) ∧
      ∃ q, Camera.zoom_in_loop 2 2 1 1 1 9 = some q ∧ q ≤ 1 + (8 : ℕ)) ∧
    (¬((1 : ℚ) < zoom_factor ^ ((-1 : ℤ) - (8 : ℕ)) * 2 ∨
       (1 : ℚ) < zoom_factor ^ ((-1 : ℤ) - (8 : ℕ)) * 2) ∧
      ∃ q, Camera.zoom_out_loop 1 1 2 2 (-1) 9 = some q ∧ (-1 : ℤ) - (8 : ℕ) ≤ q) ∧
    ∃ fuel st', Camera.set_initial_zoom demo_state 1 1 1 fuel = some st' := by
  have hfail : ¬((2 : ℚ) > zoom_factor ^ ((1 : ℤ) + (8 : ℕ)) * 1 ∧
      (2 : ℚ) > zoom_factor ^ ((1 : ℤ) + (8 : ℕ)) * 1) := by
    push_cast
    norm_num [zoom_factor]
  have hfit : ¬((1 : ℚ) < zoom_factor ^ ((-1 : ℤ) - (8 : ℕ)) * 2 ∨
      (1 : ℚ) < zoom_factor ^ ((-1 : ℤ) - (8 : ℕ)) * 2) := by
    push_cast
    norm_num [zoom_factor, zpow_neg]
  refine ⟨⟨hfail, c7_autofit_terminates.1 2 2 1 1 8 1 9 hfail (by norm_num)⟩,
    ⟨hfit, c7_autofit_terminates.2.1 1 1 2 2 8 (-1) 9 hfit (by norm_num)⟩,
    c7_autofit_terminates.2.2 demo_state 1 1 1 _ _ rfl rfl
      (by norm_num [Matrix.one_mulVec, Matrix.cons_val_zero])
      (by norm_num [Matrix.one_mulVec, Matrix.cons_val_one, Matrix.head_cons])
      (by norm_num [demo_state]) (by norm_num [demo_state])⟩

/-- A scale matrix applied to a vector, entrywise. -/
theorem scale_mulVec (v u : vec4) :
    (mat4.scale v).mulVec u = ![v 0 * u 0, v 1 * u 1, v 2 * u 2, v 3 * u 3] := by
  funext i
  fin_cases i <;>
    simp [mat4.scale, Matrix.mulVec, Matrix.dotProduct, Fin.sum_univ_four,
      Matrix.vecHead, Matrix.vecTail]

/-- The scalar `1 / compute_zoom()` is never zero: zoom is exponential. -/
theorem zoom_scalar_ne_zero (st : CameraState) :
    1 / Camera.compute_zoom st ≠ 0 := by
  rw [Camera.compute_zoom, one_div]
  exact inv_ne_zero (zpow_ne_zero _ zoom_factor_ne_zero)

/-- **C4 (amended)**: `move_to(x, y)` followed by `get_position()` returns
`(x, y)` exactly — in exact arithmetic — for every camera state, buffer
extent and target point, provided the buffer pose is invertible and its
inverse does not mix the z or w coordinates into x/y (rows 0 and 1 of the
inverse pose vanish at columns 2 and 3; the identity pose and all pure-xy
rotation/scale poses qualify).  For poses with an x/y translation component
the round trip is offset (see the counterexample). -/
theorem c4_move_to_get_position_round_trip (st : CameraState) (P : mat4)
    (bw bh x y : ℚ) (Pinv : mat4) (hP : P * Pinv = 1)
    (h02 : mat4.inv P 0 2 = 0) (h03 : mat4.inv P 0 3 = 0)
    (h12 : mat4.inv P 1 2 = 0) (h13 : mat4.inv P 1 3 = 0) :
    Camera.get_position (Camera.move_to st P bw bh x y) P bw bh 0 = x ∧
    Camera.get_position (Camera.move_to st P bw bh x y) P bw bh 1 = y := by
  have hs_ne : 1 / Camera.compute_zoom st ≠ 0 := zoom_scalar_ne_zero st
  have hPinvP : mat4.inv P * P = 1 := by
    rw [mat4.inv_eq hP]
    exact Matrix.mul_eq_one_comm.mp hP
  have hm : (mat4.inv P).mulVec
      (P.mulVec ((1 / 2 : ℚ) • ![bw, bh, 0, 1] - ![x, y, 0, 0])) =
      ((1 / 2 : ℚ) • ![bw, bh, 0, 1] - ![x, y, 0, 0]) := by
    rw [Matrix.mulVec_mulVec, hPinvP, Matrix.one_mulVec]
  have hm0 := congrFun hm 0
  have hm1 := congrFun hm 1
  simp only [Matrix.mulVec, Matrix.dotProduct, Fin.sum_univ_four] at hm0 hm1
  simp only [Camera.get_position, Camera.move_to, Camera.update_object_pose]
  rw [inv_scale (1 / Camera.compute_zoom st) hs_ne]
  simp only [← Matrix.mulVec_mulVec]
  simp only [scale_mulVec]
  simp only [Matrix.cons_val_zero, Matrix.cons_val_one, Matrix.cons_val_two,
    Matrix.cons_val_three, Matrix.cons_val_succ, Matrix.head_cons, Matrix.vecHead,
    Matrix.vecTail, Function.comp_apply, Matrix.mulVec, Matrix.dotProduct,
    Fin.sum_univ_four, Pi.sub_apply, Pi.smul_apply, smul_eq_mul,
    mul_zero, zero_mul, sub_zero, add_zero, zero_add, mul_one, one_mul,
    mul_inv_cancel_left₀ hs_ne] at hm0 hm1 ⊢
  rw [h02, h03] at hm0
  rw [h12, h13] at hm1
  rw [h03, h13]
  simp only [zero_mul, add_zero, mul_zero] at hm0 hm1 ⊢
  constructor
  · linarith [hm0]
  · linarith [hm1]

/-- Witness for C4 (amended): identity buffer pose, buffer `(2, 2)`, target
`(1/2, 1/3)`. -/
theorem c4_move_to_get_position_round_trip_witness :
    ((1 : mat4) * 1 = 1) ∧
    (mat4.inv (1 : mat4) 0 2 = 0) ∧ (mat4.inv (1 : mat4) 0 3 = 0) ∧
    (mat4.inv (1 : mat4) 1 2 = 0) ∧ (mat4.inv (1 : mat4) 1 3 = 0) ∧
    (Camera.get_position (Camera.move_to demo_state 1 2 2 (1 / 2) (1 / 3))
        1 2 2 0 = 1 / 2 ∧
     Camera.get_position (Camera.move_to demo_state 1 2 2 (1 / 2) (1 / 3))
        1 2 2 1 = 1 / 3) := by
  have hinv1 : mat4.inv (1 : mat4) = 1 := mat4.inv_eq (mul_one 1)
  have h02 : mat4.inv (1 : mat4) 0 2 = 0 := by rw [hinv1]; simp [Matrix.one_apply]
  have h03 : mat4.inv (1 : mat4) 0 3 = 0 := by rw [hinv1]; simp [Matrix.one_apply]
  have h12 : mat4.inv (1 : mat4) 1 2 = 0 := by rw [hinv1]; simp [Matrix.one_apply]
  have h13 : mat4.inv (1 : mat4) 1 3 = 0 := by rw [hinv1]; simp [Matrix.one_apply]
  exact ⟨mul_one 1, h02, h03, h12, h13,
    c4_move_to_get_position_round_trip demo_state 1 2 2 (1 / 2) (1 / 3) 1
      (mul_one 1) h02 h03 h12 h13⟩

/-- **C4 counterexample**: with buffer pose `translation(2, 0, 0)` and buffer
`(2, 2)`, `move_to(0, 0)` followed by `get_position()` returns x-coordinate
1, not the 0 that was passed — the round trip fails for poses carrying a
translation, because `get_position` rebuilds the homogeneous point with
`w = 1` while `move_to`'s centered coordinate has `w = 1/2`. -/
theorem c4_round_trip_counterexample :
    Camera.get_position
        (Camera.move_to demo_state (mat4.translation ![2, 0, 0, 1]) 2 2 0 0)
        (mat4.translation ![2, 0, 0, 1]) 2 2 0 = 1 ∧
    (1 : ℚ) ≠ 0 := by
  refine ⟨?_, by norm_num⟩
  have hs : 1 / Camera.compute_zoom demo_state = 1 := by
    norm_num [Camera.compute_zoom, demo_state]
  have hinvP : mat4.inv (mat4.translation ![2, 0, 0, 1]) =
      mat4.translation ![-2, 0, 0, 1] := by
    apply mat4.inv_eq
    rw [translation_mul_translation]
    rw [show (![(![2, 0, 0, 1] : vec4) 0 + (![-2, 0, 0, 1] : vec4) 0,
          (![2, 0, 0, 1] : vec4) 1 + (![-2, 0, 0, 1] : vec4) 1,
          (![2, 0, 0, 1] : vec4) 2 + (![-2, 0, 0, 1] : vec4) 2, 1] : vec4) =
        ![0, 0, 0, 1] from by
      funext i
      fin_cases i <;> norm_num [Matrix.vecHead, Matrix.vecTail]]
    exact translation_zero 1
  simp only [Camera.get_position, Camera.move_to, Camera.update_object_pose, hs]
  rw [hinvP, inv_scale 1 one_ne_zero]
  simp only [← Matrix.mulVec_mulVec]
  norm_num [scale_mulVec, mat4.translation, mat4.scale, Matrix.mulVec,
    Matrix.dotProduct, Fin.sum_univ_four, Matrix.cons_val_zero, Matrix.cons_val_one,
    Matrix.cons_val_two, Matrix.cons_val_three, Matrix.cons_val_succ,
    Matrix.head_cons, Matrix.vecHead, Matrix.vecTail, Pi.sub_apply, Pi.smul_apply,
    smul_eq_mul]
